import Mathlib

/-!
# Verification of the staticfile repository core

A shallow embedding of the static-content registry, lazy-decoding file
view, and codec of the `creachadair/staticfile` Go repository
(`src/staticfile.go`, `src/internal/bits/bits.go`, plus the earlier
revision kept in `src/unnamed/part_001`).

Byte sequences are modelled as `List Nat` (each element a byte value),
Go strings used as byte payloads likewise, and path strings as Lean
`String`.  The process-wide `registry` map guarded by a mutex is
modelled by explicit state passing over an association list; each
operation returns its result together with the registry it leaves
behind, which corresponds to the state of the Go map after the
lock-protected critical section.
-/

set_option autoImplicit false

namespace bits

/-- Modelled from the zlib/RFC 1950 dependency of
`src/internal/bits/bits.go` (package `compress/zlib` is Go standard
library code, not part of this repository): the Adler-32 checksum state
update, `s1 := (s1 + b) % 65521; s2 := (s2 + s1) % 65521` per byte. -/
def adler32Loop : List Nat → Nat → Nat → Nat × Nat
  | [], s1, s2 => (s1, s2)
  | b :: rest, s1, s2 =>
    adler32Loop rest ((s1 + b) % 65521) ((s2 + (s1 + b) % 65521) % 65521)

/-- Adler-32 checksum of a byte sequence, `s2 * 65536 + s1`. -/
def adler32 (data : List Nat) : Nat :=
  (adler32Loop data 1 0).2 * 65536 + (adler32Loop data 1 0).1

/-- Two-byte little-endian rendering of a 16-bit value. -/
def le16 (n : Nat) : List Nat := [n % 256, n / 256 % 256]

/-- Four-byte big-endian rendering of a 32-bit value (zlib trailer). -/
def be32 (n : Nat) : List Nat :=
  [n / 16777216 % 256, n / 65536 % 256, n / 256 % 256, n % 256]

/-- Modelled from the zlib dependency: the DEFLATE payload produced for
`Encode`, rendered with stored (uncompressed) blocks — header byte
`BFINAL + 2*BTYPE` with `BTYPE = 0`, then `LEN`, `NLEN = 65535 - LEN`
little-endian, then the literal block bytes; blocks hold at most 65535
bytes.  The concrete bit patterns a particular compression level picks
are irrelevant to the repository's use of the codec; stored blocks keep
the model executable while `Decode` below remains the exact inverse
demanded of the library. -/
def deflateStored (data : List Nat) : List Nat :=
  if h : data.length ≤ 65535 then
    1 :: (le16 data.length ++ le16 (65535 - data.length) ++ data)
  else
    0 :: (le16 65535 ++ le16 0 ++ data.take 65535 ++ deflateStored (data.drop 65535))
termination_by data.length
decreasing_by simp [List.length_drop]; omega

/-- Modelled from the zlib dependency: parser for a sequence of stored
DEFLATE blocks.  Returns the inflated bytes together with whatever
trails the final block (the checksum trailer); returns `none` on any
malformed input (unknown block type, `NLEN` mismatch, truncation). -/
def inflateStored (s : List Nat) : Option (List Nat × List Nat) :=
  match s with
  | h :: l1 :: l2 :: n1 :: n2 :: rest =>
    if h / 2 % 4 ≠ 0 then none
    else if n1 + 256 * n2 ≠ 65535 - (l1 + 256 * l2) then none
    else if hlen : rest.length < l1 + 256 * l2 then none
    else if h % 2 = 1 then some (rest.take (l1 + 256 * l2), rest.drop (l1 + 256 * l2))
    else
      match inflateStored (rest.drop (l1 + 256 * l2)) with
      | some (raw, tr) => some (rest.take (l1 + 256 * l2) ++ raw, tr)
      | none => none
  | _ => none
termination_by s.length
decreasing_by simp [List.length_drop]; omega

/-- Function `Encode` from `src/internal/bits/bits.go`: compresses via
`zlib.NewWriterLevel(&buf, zlib.BestCompression)`.  The zlib stream is
modelled as header bytes `0x78 0xda` (deflate, 32K window, FDICT clear,
valid FCHECK — the header Go emits for best compression), the DEFLATE
payload, and the big-endian Adler-32 trailer.  The Go function's error
return can only be produced by the underlying writer and is never taken
for an in-memory buffer, so the model is total. -/
def Encode (data : List Nat) : List Nat :=
  120 :: 218 :: (deflateStored data ++ be32 (adler32 data))

/-- Function `Decode` from `src/internal/bits/bits.go`: `zlib.NewReader` header
validation (method 8, window ≤ 7, FCHECK divisibility by 31, FDICT
clear) followed by inflation and Adler-32 verification, with errors
surfaced as values exactly as the Go code returns them. -/
def Decode (data : List Nat) : Except String (List Nat) :=
  match data with
  | cmf :: flg :: rest =>
    if cmf % 16 ≠ 8 ∨ 7 < cmf / 16 ∨ (cmf * 256 + flg) % 31 ≠ 0 then
      .error "staticfile: decoding error: zlib: invalid header"
    else if flg / 32 % 2 = 1 then
      .error "staticfile: decoding error: zlib: invalid header"
    else
      match inflateStored rest with
      | none => .error "flate: corrupt input"
      | some (raw, trailer) =>
        if trailer.take 4 = be32 (adler32 raw) then .ok raw
        else .error "zlib: invalid checksum"
  | _ => .error "staticfile: decoding error: zlib: invalid header"

/-- The characters `ToSource` emits for one byte: `\xHH` for bytes
outside `' '..'~'`, a backslash escape for `'"'` and `'\'`, and the
byte itself otherwise (branches of the loop in `ToSource`,
`src/internal/bits/bits.go`). -/
def escByte (b : Nat) : List Char :=
  if b < 32 ∨ 126 < b then ['\\', 'x', Nat.digitChar (b / 16 % 16), Nat.digitChar (b % 16)]
  else if b = 34 ∨ b = 92 then ['\\', Char.ofNat b]
  else [Char.ofNat b]

/-- The byte loop of `ToSource`: emits each byte's escape, tracks the
column position `pos` (the escape's branches add 4, 2 and 1, which is
the emitted length), and after a byte pushes `pos` past `maxWidth = 120`
closes and reopens the literal with `"+`, newline, `"`.  Returns the
emitted characters and the final `pos`. -/
def toSourceLoop : List Nat → Nat → List Char × Nat
  | [], pos => ([], pos)
  | b :: rest, pos =>
    if 120 < pos + (escByte b).length then
      (escByte b ++ '"' :: '+' :: '\n' :: '"' :: (toSourceLoop rest 1).1,
       (toSourceLoop rest 1).2)
    else
      (escByte b ++ (toSourceLoop rest (pos + (escByte b).length)).1,
       (toSourceLoop rest (pos + (escByte b).length)).2)

/-- Function `ToSource` from `src/internal/bits/bits.go`: opening quote (column
position starts at 1), the escaped body, the closing quote, and a final
newline when the last line is nonempty (`pos > 1`).  The output sink
`w` is modelled by returning the written characters; the only Go error
path is a sink write error. -/
def ToSource (data : List Nat) : List Char :=
  '"' :: (toSourceLoop data 1).1 ++ ['"'] ++
    (if 1 < (toSourceLoop data 1).2 then ['\n'] else [])

/-- Value of a lowercase hexadecimal digit character, used by the
Go-literal reading-back function below. -/
def fromHexDigit (c : Char) : Option Nat :=
  if '0' ≤ c ∧ c ≤ '9' then some (c.toNat - 48)
  else if 'a' ≤ c ∧ c ≤ 'f' then some (c.toNat - 87)
  else none

/-- Specification-side definition (follows the spec's words, not the
repository): reads the body of a wrapped Go string literal back into
bytes — `\xHH` hex escapes, `\"` and `\\` escapes, literal characters,
the `"+` newline `"` wrap that closes and reopens the literal, and the
closing quote optionally followed by the final newline.  Used to state
that `ToSource` escapes every byte correctly. -/
def fromSourceBody (s : List Char) : Option (List Nat) :=
  match s with
  | [] => none
  | c :: rest =>
    if c = '"' then
      if rest = [] ∨ rest = ['\n'] then some []
      else
        match rest with
        | '+' :: '\n' :: '"' :: rest2 => fromSourceBody rest2
        | _ => none
    else if c = '\\' then
      match rest with
      | [] => none
      | c2 :: rest2 =>
        if c2 = 'x' then
          match rest2 with
          | h1 :: h2 :: rest3 =>
            (fromHexDigit h1).bind fun a =>
              (fromHexDigit h2).bind fun b =>
                (fromSourceBody rest3).map fun t => (16 * a + b) :: t
          | _ => none
        else if c2 = '"' ∨ c2 = '\\' then
          (fromSourceBody rest2).map fun t => c2.toNat :: t
        else none
    else if c = '\n' then none
    else (fromSourceBody rest).map fun t => c.toNat :: t
termination_by s.length
decreasing_by all_goals simp_all <;> omega

/-- Specification-side definition: reads a whole emitted literal,
expecting the opening quote. -/
def fromSource (s : List Char) : Option (List Nat) :=
  match s with
  | '"' :: rest => fromSourceBody rest
  | _ => none

/-- Predicate `linesLE bound k s` checks that, with `k` characters already on the
current output line, every line of `s` (split at newlines) ends with at
most `bound` characters.  Used to state the line-width property of
`ToSource`. -/
def linesLE (bound : Nat) : Nat → List Char → Bool
  | k, [] => decide (k ≤ bound)
  | k, c :: rest =>
    if c = '\n' then decide (k ≤ bound) && linesLE bound 0 rest
    else linesLE bound (k + 1) rest

end bits

/-!
## Path normalization

`register` computes
`strings.TrimLeft(filepath.Clean(path), string(filepath.Separator))`.
`filepath.Clean` is Go standard-library code (not part of this
repository); it is modelled below by a transliteration of its
Unix-rules loop (`path[r] == '/'` skip, lone `.` skip, `..`
backtracking against the `dotdot` watermark, and segment copying with
a separator when needed).  The output buffer is kept in reverse order
(most recently written character first).
-/

/-- The `..` backtracking of `filepath.Clean`: `out.w--` followed by
`for out.w > dotdot && out.index(out.w) != '/' { out.w-- }` — pop the
last written character, then keep popping while the character just
popped was not a separator and the watermark is not reached.  `out` is
reversed, so popping is taking the tail. -/
def popSegment : List Char → Nat → List Char
  | [], _ => []
  | e :: rest, dotdot =>
    if dotdot < rest.length ∧ e ≠ '/' then popSegment rest dotdot else rest

/-- The scanning loop of `filepath.Clean` over the remaining input,
carrying the (reversed) output buffer and the `dotdot` watermark. -/
def cleanLoop (rem : List Char) (rooted : Bool) (out : List Char) (dotdot : Nat) :
    List Char :=
  match rem with
  | [] => out
  | '/' :: rest => cleanLoop rest rooted out dotdot
  | '.' :: rest =>
    if rest = [] ∨ rest.head? = some '/' then cleanLoop rest rooted out dotdot
    else if rest.head? = some '.' ∧ (rest.tail = [] ∨ rest.tail.head? = some '/') then
      if dotdot < out.length then cleanLoop rest.tail rooted (popSegment out dotdot) dotdot
      else if ¬rooted then
        cleanLoop rest.tail rooted
          ('.' :: '.' :: (if out.length ≠ 0 then '/' :: out else out))
          ('.' :: '.' :: (if out.length ≠ 0 then '/' :: out else out)).length
      else cleanLoop rest.tail rooted out dotdot
    else
      cleanLoop (List.dropWhile (fun x => x ≠ '/') rest) rooted
        (('.' :: List.takeWhile (fun x => x ≠ '/') rest).reverse ++
          (if (rooted ∧ out.length ≠ 1) ∨ (¬rooted ∧ out.length ≠ 0) then '/' :: out
           else out))
        dotdot
  | c :: rest =>
    cleanLoop (List.dropWhile (fun x => x ≠ '/') rest) rooted
      ((c :: List.takeWhile (fun x => x ≠ '/') rest).reverse ++
        (if (rooted ∧ out.length ≠ 1) ∨ (¬rooted ∧ out.length ≠ 0) then '/' :: out
         else out))
      dotdot
termination_by rem.length
decreasing_by
  all_goals simp_all
  all_goals try omega
  all_goals exact Nat.lt_succ_of_le (List.dropWhile_sublist _).length_le

/-- Go `filepath.Clean` (Unix rules): empty input yields `"."`, a leading
separator makes the path rooted (the buffer starts with `/` and the
watermark at 1), an empty output buffer yields `"."`. -/
def filepathClean (s : String) : String :=
  match s.data with
  | [] => "."
  | c :: rest =>
    if c = '/' then
      ⟨(cleanLoop ('/' :: rest) true ['/'] 1).reverse⟩
    else
      match cleanLoop (c :: rest) false [] 0 with
      | [] => "."
      | out => ⟨out.reverse⟩

/-- The registry key `register` stores under:
`strings.TrimLeft(filepath.Clean(path), string(filepath.Separator))`,
i.e. the cleaned path with every leading separator dropped. -/
def cleanKey (path : String) : String :=
  ⟨List.dropWhile (fun c => c = '/') (filepathClean path).data⟩

/-!
## The registry model (`src/staticfile.go`)
-/

/-- The error values the package can return: the two `register` errors,
`os.ErrNotExist` from a registry miss, and a decode error carrying the
message produced by `bits.Decode`. -/
inductive Err where
  | invalidPath : Err
  | duplicatePath : String → Err
  | notExist : Err
  | decodeError : String → Err
deriving DecidableEq

/-- One registry record (`type fileData struct` in
`src/staticfile.go`): the canonical path, the payload bytes, and the
decoded flag. -/
structure FileData where
  Path : String
  Data : List Nat
  Decoded : Bool
deriving DecidableEq

/-- The process-wide `registry.data` map, modelled as an association
list (first match wins; `register` never creates a duplicate key). -/
abbrev Registry := List (String × FileData)

/-- Go map lookup `registry.data[path]`. -/
def lookupReg : Registry → String → Option FileData
  | [], _ => none
  | (k, v) :: rest, path => if k = path then some v else lookupReg rest path

/-- Go map assignment `registry.data[k] = v`: replace the entry if the
key is present, append it otherwise. -/
def setReg : Registry → String → FileData → Registry
  | [], k, v => [(k, v)]
  | (k', v') :: rest, k, v =>
    if k' = k then (k, v) :: rest else (k', v') :: setReg rest k v

/-- Function `register` from `src/staticfile.go`: clean the path and strip
leading separators, fail on an empty original path or a duplicate
cleaned key, otherwise insert a fresh undecoded entry.  The whole
check-then-insert runs under the registry lock; the returned registry
is the state after the critical section. -/
def register (path : String) (data : List Nat) (reg : Registry) :
    Option Err × Registry :=
  if path = "" then (some .invalidPath, reg)
  else if (lookupReg reg (cleanKey path)).isSome then
    (some (.duplicatePath (cleanKey path)), reg)
  else (none, setReg reg (cleanKey path) ⟨cleanKey path, data, false⟩)

/-- Function `openData` from `src/staticfile.go`: look up the exact key; on a
miss return `os.ErrNotExist`; on the first open of an entry decode the
bits, failing without touching the entry on a decode error, and
otherwise store the decoded bytes and set the flag before returning
them. -/
def openData (reg : Registry) (path : String) :
    Except Err (List Nat) × Registry :=
  match lookupReg reg path with
  | none => (.error .notExist, reg)
  | some d =>
    if d.Decoded then (.ok d.Data, reg)
    else
      match bits.Decode d.Data with
      | .error e => (.error (.decodeError e), reg)
      | .ok dec => (.ok dec, setReg reg path ⟨d.Path, dec, true⟩)

/-- A `File` (`src/staticfile.go`): a read-only view over the decoded
bytes, `bytes.NewReader(data)` with its cursor at the start. -/
structure File where
  data : List Nat
  pos : Nat
deriving DecidableEq

/-- Method `File.Size`: `bytes.Reader.Size` reports the length of the
underlying byte slice, independent of the cursor. -/
def File.Size (f : File) : Nat := f.data.length

/-- Reading a `File` sequentially to exhaustion yields everything from
the cursor on. -/
def File.readFull (f : File) : List Nat := f.data.drop f.pos

/-- Function `Open` from `src/staticfile.go`: `openData`, then wrap the bytes in
a fresh reader. -/
def Open (reg : Registry) (path : String) : Except Err File × Registry :=
  match openData reg path with
  | (.error e, reg') => (.error e, reg')
  | (.ok data, reg') => (.ok ⟨data, 0⟩, reg')

/-- Function `ReadAll` from `src/staticfile.go`: exactly `openData`. -/
def ReadAll (reg : Registry) (path : String) :
    Except Err (List Nat) × Registry :=
  openData reg path

/-- A real filesystem, for the delegation boundary: a mapping from path
to file content. -/
abbrev FS := List (String × List Nat)

/-- Disk lookup (what `os.Open` / `ioutil.ReadFile` find at a path). -/
def fsLookup : FS → String → Option (List Nat)
  | [], _ => none
  | (k, v) :: rest, path => if k = path then some v else fsLookup rest path

namespace oldrev

/-- Function `ReadFile` from the earlier revision of the package kept in
`src/unnamed/part_001`: `openData`, and when that reports
`os.ErrNotExist`, delegate to `ioutil.ReadFile` on the real filesystem
(modelled by `fsLookup`; a missing disk file is again reported as
not-exist). -/
def ReadFile (fs : FS) (reg : Registry) (path : String) :
    Except Err (List Nat) × Registry :=
  match openData reg path with
  | (.error .notExist, reg') =>
    (match fsLookup fs path with
     | some c => (.ok c, reg')
     | none => (.error .notExist, reg'))
  | r => r

end oldrev

/-!
## The reference-semantics model for buffer aliasing

Go returns byte *slices*: `ReadAll` hands back `d.Data` itself, sharing
the backing array with the registry entry.  To settle the aliasing
claim, a second model makes buffers explicit heap references: `Store`
is the heap of byte buffers, entries hold a reference, and the
operations return references exactly where the Go functions return
slices.  Fresh allocations (`[]byte(data)` in `register`,
`ioutil.ReadAll`'s result inside `bits.Decode`) append to the heap.
-/

/-- The heap of byte buffers; a reference is an index. -/
abbrev Store := List (List Nat)

/-- Dereference a buffer. -/
def readBuf (st : Store) (r : Nat) : List Nat := (st.get? r).getD []

/-- Overwrite a buffer in place (what a caller mutating a returned
slice does to the shared backing array). -/
def writeBuf (st : Store) (r : Nat) (c : List Nat) : Store := st.set r c

/-- A registry record holding a reference to its payload buffer. -/
structure FileDataR where
  Path : String
  DataRef : Nat
  Decoded : Bool
deriving DecidableEq

/-- The registry, reference-semantics version. -/
abbrev RegistryR := List (String × FileDataR)

/-- Go map lookup, reference-semantics version. -/
def lookupRegR : RegistryR → String → Option FileDataR
  | [], _ => none
  | (k, v) :: rest, path => if k = path then some v else lookupRegR rest path

/-- Go map assignment, reference-semantics version. -/
def setRegR : RegistryR → String → FileDataR → RegistryR
  | [], k, v => [(k, v)]
  | (k', v') :: rest, k, v =>
    if k' = k then (k, v) :: rest else (k', v') :: setRegR rest k v

/-- Function `register`, reference-semantics version: `[]byte(data)` allocates a
fresh buffer for the payload. -/
def registerR (path : String) (data : List Nat) (reg : RegistryR) (st : Store) :
    Option Err × RegistryR × Store :=
  if path = "" then (some .invalidPath, reg, st)
  else if (lookupRegR reg (cleanKey path)).isSome then
    (some (.duplicatePath (cleanKey path)), reg, st)
  else (none, setRegR reg (cleanKey path) ⟨cleanKey path, st.length, false⟩,
        st ++ [data])

/-- Function `openData`, reference-semantics version: decoding allocates a fresh
buffer, the entry is repointed at it, and the function returns `d.Data`
— the entry's buffer reference itself, not a copy. -/
def openDataR (reg : RegistryR) (st : Store) (path : String) :
    Except Err Nat × RegistryR × Store :=
  match lookupRegR reg path with
  | none => (.error .notExist, reg, st)
  | some d =>
    if d.Decoded then (.ok d.DataRef, reg, st)
    else
      match bits.Decode (readBuf st d.DataRef) with
      | .error e => (.error (.decodeError e), reg, st)
      | .ok dec =>
        (.ok st.length, setRegR reg path ⟨d.Path, st.length, true⟩, st ++ [dec])

/-- Function `ReadAll`, reference-semantics version: returns the slice
(reference) produced by `openData`. -/
def ReadAllR (reg : RegistryR) (st : Store) (path : String) :
    Except Err Nat × RegistryR × Store :=
  openDataR reg st path

/-!
## Codec lemmas and the round-trip law
-/

theorem le16_decomp (n : Nat) (h : n < 65536) :
    n % 256 + 256 * (n / 256 % 256) = n := by
  rw [Nat.mod_eq_of_lt (by omega : n / 256 < 256)]; omega

theorem inflate_deflate (x t : List Nat) :
    bits.inflateStored (bits.deflateStored x ++ t) = some (x, t) := by
  rw [bits.deflateStored]
  split
  next h =>
    have h1 : x.length % 256 + 256 * (x.length / 256 % 256) = x.length :=
      le16_decomp _ (by omega)
    have h2 : (65535 - x.length) % 256 +
        256 * ((65535 - x.length) / 256 % 256) = 65535 - x.length :=
      le16_decomp _ (by omega)
    simp only [bits.le16, List.cons_append, List.append_assoc, List.nil_append]
    rw [bits.inflateStored]
    simp only [h1, h2, List.length_append]
    have h3 : ¬((x ++ t).length < x.length) := by simp [List.length_append]
    simp [h3, List.take_left, List.drop_left]
  next h =>
    have h1 : (65535 : Nat) % 256 + 256 * (65535 / 256 % 256) = 65535 := by decide
    have ih := inflate_deflate (x.drop 65535) t
    have hxt : (x.take 65535).length = 65535 := by
      simp [List.length_take]; omega
    simp only [bits.le16, List.cons_append, List.append_assoc, List.nil_append]
    rw [bits.inflateStored]
    have h3 : ¬((x.take 65535 ++ (bits.deflateStored (x.drop 65535) ++ t)).length <
        65535 % 256 + 256 * (65535 / 256 % 256)) := by
      simp [List.length_append, hxt, h1]
    simp only [h1, h3]
    have hgen : ∀ (a b : List Nat), a.length = 65535 →
        (a ++ b).take 65535 = a ∧ (a ++ b).drop 65535 = b := by
      intro a b ha
      constructor
      · rw [← ha, List.take_left]
      · rw [← ha, List.drop_left]
    have h4 := (hgen (x.take 65535) (bits.deflateStored (x.drop 65535) ++ t) hxt).1
    have h5 := (hgen (x.take 65535) (bits.deflateStored (x.drop 65535) ++ t) hxt).2
    simp [h4, h5, ih, List.take_append_drop]
termination_by x.length

/-- The round-trip law, shared by the claims below. -/
theorem decode_encode_ok (x : List Nat) :
    bits.Decode (bits.Encode x) = .ok x := by
  rw [bits.Encode]
  simp [bits.Decode, inflate_deflate, bits.be32]

/-- C1: for every byte sequence `x`, including the empty sequence,
`Decode (Encode x)` returns `x` without error. -/
theorem claim1_decode_encode (x : List Nat) :
    bits.Decode (bits.Encode x) = .ok x :=
  decode_encode_ok x

/-!
## Registry lemmas
-/

theorem lookup_set_self (reg : Registry) (k : String) (v : FileData) :
    lookupReg (setReg reg k v) k = some v := by
  induction reg with
  | nil => simp [setReg, lookupReg]
  | cons kv rest ih =>
    obtain ⟨k', v'⟩ := kv
    by_cases h : k' = k
    · simp [setReg, lookupReg, h]
    · simp [setReg, lookupReg, h, ih]

theorem lookup_set_ne (reg : Registry) (k p : String) (v : FileData)
    (h : p ≠ k) : lookupReg (setReg reg k v) p = lookupReg reg p := by
  have h' : ¬(k = p) := fun hh => h hh.symm
  induction reg with
  | nil => simp [setReg, lookupReg, h']
  | cons kv rest ih =>
    obtain ⟨k', v'⟩ := kv
    by_cases hk : k' = k
    · subst hk
      simp [setReg, lookupReg, h']
    · simp [setReg, lookupReg, hk, ih]

/-- C2: opening a registered path whose payload is `Encode T` succeeds
and returns a `File` whose full sequential read yields exactly `T` and
whose `Size` equals the length of `T`. -/
theorem claim2_open_registered (reg : Registry) (p q : String) (T : List Nat)
    (h : lookupReg reg p = some ⟨q, bits.Encode T, false⟩) :
    (Open reg p).1 = .ok ⟨T, 0⟩ ∧
    File.readFull ⟨T, 0⟩ = T ∧ File.Size ⟨T, 0⟩ = T.length := by
  unfold Open openData
  rw [h]
  simp [decode_encode_ok, File.readFull, File.Size]

/-- Witness for C2 at the spec's own example: `"a/b.txt"` registered
with the compressed form of `"hello"` (bytes 104 101 108 108 111). -/
theorem claim2_witness :
    (Open [("a/b.txt", ⟨"a/b.txt", bits.Encode [104, 101, 108, 108, 111], false⟩)]
        "a/b.txt").1 = .ok ⟨[104, 101, 108, 108, 111], 0⟩ ∧
    File.readFull ⟨[104, 101, 108, 108, 111], 0⟩ = [104, 101, 108, 108, 111] ∧
    File.Size ⟨[104, 101, 108, 108, 111], 0⟩ = 5 :=
  claim2_open_registered _ "a/b.txt" "a/b.txt" _ (by simp [lookupReg])

/-- C4: `register` fails exactly when the original path is empty
(`InvalidPath`) or the cleaned key is already present
(`DuplicatePath`); on failure the registry is unchanged, and after a
duplicate registration the stored entry is still the first one. -/
theorem claim4_register_errors (path : String) (data : List Nat) (reg : Registry) :
    ((register path data reg).1.isSome ↔
      (path = "" ∨ (lookupReg reg (cleanKey path)).isSome = true)) ∧
    ((register path data reg).1.isSome → (register path data reg).2 = reg) ∧
    (path = "" → (register path data reg).1 = some .invalidPath) ∧
    (path ≠ "" → (lookupReg reg (cleanKey path)).isSome →
      (register path data reg).1 = some (.duplicatePath (cleanKey path))) ∧
    (∀ data2, (register path data reg).1 = none →
      (register path data2 (register path data reg).2).1 =
        some (.duplicatePath (cleanKey path)) ∧
      lookupReg (register path data2 (register path data reg).2).2 (cleanKey path) =
        some ⟨cleanKey path, data, false⟩) := by
  by_cases hp : path = ""
  · simp [register, hp]
  · by_cases hdup : (lookupReg reg (cleanKey path)).isSome
    · simp [register, hp, hdup]
    · simp [register, hp, hdup, lookup_set_self]

/-- Witness for C4: registering `"x"` into the empty registry succeeds;
a second registration of `"x"` fails with the duplicate error and
leaves the first entry in place. -/
theorem claim4_witness :
    (register "x" [3] (register "x" [1, 2] []).2).1 =
      some (.duplicatePath (cleanKey "x")) ∧
    lookupReg (register "x" [3] (register "x" [1, 2] []).2).2 (cleanKey "x") =
      some ⟨cleanKey "x", [1, 2], false⟩ :=
  (claim4_register_errors "x" [1, 2] []).2.2.2.2 [3]
    (by simp [register, cleanKey, filepathClean, cleanLoop, lookupReg, setReg])

/-- C5: the encoded-to-decoded transition happens at most once.  A
decoded entry is returned as stored, with no state change and no run of
the decoder (whatever its payload, decodable or not); a first
successful open installs the decoded bytes with the flag set, after
which a later open returns the cached bytes unchanged; and `register`
never alters an existing entry, so nothing resets the flag. -/
theorem claim5_decode_once (reg : Registry) (p : String) (d : FileData)
    (h : lookupReg reg p = some d) :
    (d.Decoded = true → openData reg p = (.ok d.Data, reg)) ∧
    (∀ raw, d.Decoded = false → bits.Decode d.Data = .ok raw →
      openData reg p = (.ok raw, setReg reg p ⟨d.Path, raw, true⟩) ∧
      lookupReg (setReg reg p ⟨d.Path, raw, true⟩) p = some ⟨d.Path, raw, true⟩ ∧
      openData (setReg reg p ⟨d.Path, raw, true⟩) p =
        (.ok raw, setReg reg p ⟨d.Path, raw, true⟩)) ∧
    (∀ q e, lookupReg (register q e reg).2 p = some d) := by
  refine ⟨?_, ?_, ?_⟩
  · intro hd
    simp [openData, h, hd]
  · intro raw hd hdec
    have h2 : lookupReg (setReg reg p ⟨d.Path, raw, true⟩) p =
        some ⟨d.Path, raw, true⟩ := lookup_set_self reg p _
    refine ⟨?_, h2, ?_⟩
    · simp [openData, h, hd, hdec]
    · simp [openData, h2]
  · intro q e
    unfold register
    by_cases hq : q = ""
    · simp [hq, h]
    · by_cases hdup : (lookupReg reg (cleanKey q)).isSome
      · simp [hq, hdup, h]
      · have hne : p ≠ cleanKey q := by
          intro hh
          rw [hh] at h
          rw [h] at hdup
          simp at hdup
        simp [hq, hdup, lookup_set_ne reg (cleanKey q) p _ hne, h]

/-- Witness for C5: a decoded entry whose stored bytes are not even a
valid encoding is returned as-is — the decoder demonstrably does not
run again. -/
theorem claim5_witness :
    openData [("p", ⟨"p", [9, 9], true⟩)] "p" =
      (.ok [9, 9], [("p", ⟨"p", [9, 9], true⟩)]) :=
  (claim5_decode_once [("p", ⟨"p", [9, 9], true⟩)] "p" ⟨"p", [9, 9], true⟩
    (by decide)).1 rfl

/-- C6: when the stored payload of a registered, not-yet-decoded path
fails to decompress, `openData` (hence `Open` and `ReadAll`) returns
the decode error and leaves the entry unchanged — payload still
encoded, flag still false — so a retry re-runs the decode with the same
inputs. -/
theorem claim6_decode_failure (reg : Registry) (p : String) (d : FileData)
    (e : String) (h : lookupReg reg p = some d) (hd : d.Decoded = false)
    (he : bits.Decode d.Data = .error e) :
    openData reg p = (.error (.decodeError e), reg) ∧
    lookupReg (openData reg p).2 p = some d ∧
    openData (openData reg p).2 p = openData reg p := by
  have h1 : openData reg p = (.error (.decodeError e), reg) := by
    simp [openData, h, hd, he]
  rw [h1]
  exact ⟨rfl, h, h1⟩

/-- Witness for C6: payload `[0, 1]` is rejected by the zlib header
check, the entry survives untouched, and the retry fails identically. -/
theorem claim6_witness :
    openData [("p", ⟨"p", [0, 1], false⟩)] "p" =
      (.error (.decodeError "staticfile: decoding error: zlib: invalid header"),
       [("p", ⟨"p", [0, 1], false⟩)]) ∧
    lookupReg (openData [("p", ⟨"p", [0, 1], false⟩)] "p").2 "p" =
      some ⟨"p", [0, 1], false⟩ ∧
    openData (openData [("p", ⟨"p", [0, 1], false⟩)] "p").2 "p" =
      openData [("p", ⟨"p", [0, 1], false⟩)] "p" :=
  claim6_decode_failure [("p", ⟨"p", [0, 1], false⟩)] "p" ⟨"p", [0, 1], false⟩
    "staticfile: decoding error: zlib: invalid header"
    rfl rfl rfl

/-- C7: lookup uses the exact key as given, with no re-normalization:
after registering path `p`, opening the cleaned key succeeds while
opening any other spelling — including non-clean spellings of the same
file — reports not-found. -/
theorem claim7_exact_lookup (p q : String) (T : List Nat) (hp : p ≠ "")
    (hq : q ≠ cleanKey p) :
    (openData (register p (bits.Encode T) []).2 (cleanKey p)).1 = .ok T ∧
    (openData (register p (bits.Encode T) []).2 q).1 = .error .notExist := by
  have hreg : (register p (bits.Encode T) []).2 =
      [(cleanKey p, ⟨cleanKey p, bits.Encode T, false⟩)] := by
    simp [register, hp, lookupReg, setReg]
  have hq' : ¬(cleanKey p = q) := fun hh => hq hh.symm
  rw [hreg]
  constructor
  · simp [openData, lookupReg, decode_encode_ok]
  · simp [openData, lookupReg, hq']

/-- Witness for C7: `"./x"` registers under key `"x"`; opening `"x"`
yields the bytes, opening the non-clean spelling `"/x"` does not. -/
theorem claim7_witness :
    (openData (register "./x" (bits.Encode [1, 2]) []).2 (cleanKey "./x")).1 =
      .ok [1, 2] ∧
    (openData (register "./x" (bits.Encode [1, 2]) []).2 "/x").1 =
      .error .notExist := by
  have hck : cleanKey "./x" = "x" := by
    simp [cleanKey, filepathClean, cleanLoop, popSegment]
  exact claim7_exact_lookup "./x" "/x" [1, 2] (by decide) (by rw [hck]; decide)

/-!
## C3: the delegation boundary
-/

/-- C3 counterexample: the claim says `Open`/`ReadAll` of
`src/staticfile.go` fall back to the real filesystem when the path is
unregistered.  They do not: their definitions consume no filesystem at
all, so with a real file `"q"` holding byte `7` on disk and an empty
registry, `ReadAll` still reports not-found instead of returning
`[7]`. -/
theorem claim3_counterexample :
    (ReadAll [] "q").1 = .error .notExist ∧
    (ReadAll [] "q").1 ≠ .ok [7] := by
  constructor
  · rfl
  · simp [ReadAll, openData, lookupReg]

/-- C3 amended: in `src/staticfile.go` a registry miss is reported by
`Open` and `ReadAll` as `os.ErrNotExist` — the standard file-not-found
error, not a distinct application error — and the functions themselves
never touch the filesystem; the delegating entry point lives in the
earlier revision (`src/unnamed/part_001`), whose `ReadFile` falls
through to the real file at the path and returns its content. -/
theorem claim3_amended :
    (∀ reg p, lookupReg reg p = none →
      (ReadAll reg p).1 = .error .notExist ∧ (Open reg p).1 = .error .notExist) ∧
    (∀ fs reg p c, lookupReg reg p = none → fsLookup fs p = some c →
      (oldrev.ReadFile fs reg p).1 = .ok c) := by
  constructor
  · intro reg p h
    constructor
    · simp [ReadAll, openData, h]
    · simp [Open, openData, h]
  · intro fs reg p c h hf
    simp [oldrev.ReadFile, openData, h, hf]

/-- Witness for the amended C3: an empty registry misses `"q"`, and the
delegating `ReadFile` of the earlier revision returns the disk
content. -/
theorem claim3_witness :
    ((ReadAll [] "q").1 = .error .notExist ∧ (Open [] "q").1 = .error .notExist) ∧
    (oldrev.ReadFile [("q", [7])] [] "q").1 = .ok [7] :=
  ⟨claim3_amended.1 [] "q" rfl, claim3_amended.2 [("q", [7])] [] "q" [7] rfl rfl⟩

/-!
## C10: separator-only paths
-/

theorem cleanLoop_slashes (k : Nat) :
    cleanLoop (List.replicate k '/') true ['/'] 1 = ['/'] := by
  induction k with
  | zero => simp [cleanLoop]
  | succ n ih => simp [List.replicate_succ, cleanLoop, ih]

theorem cleanKey_slashes (n : Nat) :
    cleanKey ⟨List.replicate (n + 1) '/'⟩ = "" := by
  have h1 : (⟨List.replicate (n + 1) '/'⟩ : String).data =
      '/' :: List.replicate n '/' := by
    simp [List.replicate_succ]
  have hcl : cleanLoop ('/' :: List.replicate n '/') true ['/'] 1 = ['/'] := by
    have h3 := cleanLoop_slashes (n + 1)
    rwa [List.replicate_succ] at h3
  unfold cleanKey filepathClean
  rw [h1]
  simp [hcl, List.dropWhile]

/-- C10: a non-empty path consisting solely of separators registers
successfully and is stored under the empty-string key (cleaning yields
`"/"`, stripping the leading separator leaves `""`); opening `""`
returns the content while opening `"/"` itself reports not-found. -/
theorem claim10_slash_paths (n : Nat) (T : List Nat) :
    (register ⟨List.replicate (n + 1) '/'⟩ (bits.Encode T) []).1 = none ∧
    lookupReg (register ⟨List.replicate (n + 1) '/'⟩ (bits.Encode T) []).2 "" =
      some ⟨"", bits.Encode T, false⟩ ∧
    (openData (register ⟨List.replicate (n + 1) '/'⟩ (bits.Encode T) []).2 "").1 =
      .ok T ∧
    (openData (register ⟨List.replicate (n + 1) '/'⟩ (bits.Encode T) []).2 "/").1 =
      .error .notExist := by
  have hne : (⟨List.replicate (n + 1) '/'⟩ : String) ≠ "" := by
    intro h
    have := congrArg String.data h
    simp [List.replicate_succ] at this
  have hck := cleanKey_slashes n
  have hreg : register ⟨List.replicate (n + 1) '/'⟩ (bits.Encode T) [] =
      (none, [("", ⟨"", bits.Encode T, false⟩)]) := by
    simp [register, hne, hck, lookupReg, setReg]
  rw [hreg]
  refine ⟨rfl, by simp [lookupReg], ?_, ?_⟩
  · simp [openData, lookupReg, decode_encode_ok]
  · simp [openData, lookupReg]

/-!
## C8: buffer aliasing
-/

/-- C8 counterexample: the claim says mutating the bytes returned by
`ReadAll` never changes what a later `ReadAll` returns.  In the
reference-semantics model the first `ReadAll` of `"p"` returns buffer
reference 1 holding `[1, 2, 3]`; overwriting that buffer (mutating the
returned slice in Go) makes the second `ReadAll` — which returns the
same internal reference — read `[9, 9, 9]`. -/
theorem claim8_counterexample :
    ReadAllR [("p", ⟨"p", 0, false⟩)] [bits.Encode [1, 2, 3]] "p" =
      (.ok 1, [("p", ⟨"p", 1, true⟩)], [bits.Encode [1, 2, 3], [1, 2, 3]]) ∧
    readBuf [bits.Encode [1, 2, 3], [1, 2, 3]] 1 = [1, 2, 3] ∧
    ReadAllR [("p", ⟨"p", 1, true⟩)]
        (writeBuf [bits.Encode [1, 2, 3], [1, 2, 3]] 1 [9, 9, 9]) "p" =
      (.ok 1, [("p", ⟨"p", 1, true⟩)], [bits.Encode [1, 2, 3], [9, 9, 9]]) ∧
    readBuf [bits.Encode [1, 2, 3], [9, 9, 9]] 1 = [9, 9, 9] ∧
    ([9, 9, 9] : List Nat) ≠ [1, 2, 3] := by
  refine ⟨?_, rfl, ?_, rfl, by decide⟩
  · simp [ReadAllR, openDataR, lookupRegR, setRegR, readBuf, decode_encode_ok]
  · simp [ReadAllR, openDataR, lookupRegR, writeBuf, readBuf]

/-- C8 amended: `ReadAll` hands out the registry's internal byte buffer
itself — for a decoded entry it returns the entry's buffer reference,
so a caller's mutation of the returned bytes is visible to every later
`Open`/`ReadAll` of the path.  (`Open` wraps the same buffer but its
`File` exposes no mutating operation.) -/
theorem claim8_amended (reg : RegistryR) (st : Store) (p : String)
    (d : FileDataR) (h : lookupRegR reg p = some d) (hd : d.Decoded = true) :
    (ReadAllR reg st p).1 = .ok d.DataRef ∧
    ∀ c, d.DataRef < st.length →
      (ReadAllR reg (writeBuf st d.DataRef c) p).1 = .ok d.DataRef ∧
      readBuf (writeBuf st d.DataRef c) d.DataRef = c := by
  refine ⟨by simp [ReadAllR, openDataR, h, hd], ?_⟩
  intro c hlt
  refine ⟨by simp [ReadAllR, openDataR, h, hd], ?_⟩
  simp [readBuf, writeBuf, List.getElem?_set, hlt]

/-- Witness for the amended C8: a decoded entry at reference 0; the
read returns reference 0 and observes the overwritten content. -/
theorem claim8_witness :
    (ReadAllR [("p", ⟨"p", 0, true⟩)] [[1, 2]] "p").1 = .ok 0 ∧
    ((ReadAllR [("p", ⟨"p", 0, true⟩)] (writeBuf [[1, 2]] 0 [5]) "p").1 = .ok 0 ∧
      readBuf (writeBuf [[1, 2]] 0 [5]) 0 = [5]) :=
  ⟨(claim8_amended [("p", ⟨"p", 0, true⟩)] [[1, 2]] "p" ⟨"p", 0, true⟩ rfl rfl).1,
   (claim8_amended [("p", ⟨"p", 0, true⟩)] [[1, 2]] "p" ⟨"p", 0, true⟩ rfl rfl).2
     [5] (by decide)⟩

/-!
## C9: `ToSource` escaping and line width
-/

theorem digitChar_facts : ∀ k, k < 16 →
    32 ≤ (Nat.digitChar k).toNat ∧ (Nat.digitChar k).toNat ≤ 126 ∧
    Nat.digitChar k ≠ '\n' ∧ bits.fromHexDigit (Nat.digitChar k) = some k := by
  decide

theorem charOfNat_facts : ∀ b, b < 127 → 32 ≤ b →
    (Char.ofNat b).toNat = b ∧ Char.ofNat b ≠ '\n' ∧
    (b ≠ 34 → Char.ofNat b ≠ '"') ∧ (b ≠ 92 → Char.ofNat b ≠ '\\') := by
  decide

theorem escByte_chars (b : Nat) :
    ∀ c ∈ bits.escByte b, 32 ≤ c.toNat ∧ c.toNat ≤ 126 := by
  intro c hc
  unfold bits.escByte at hc
  by_cases h1 : b < 32 ∨ 126 < b
  · rw [if_pos h1] at hc
    simp only [List.mem_cons, List.not_mem_nil, or_false] at hc
    rcases hc with rfl | rfl | rfl | rfl
    · decide
    · decide
    · have := digitChar_facts (b / 16 % 16) (Nat.mod_lt _ (by decide))
      exact ⟨this.1, this.2.1⟩
    · have := digitChar_facts (b % 16) (Nat.mod_lt _ (by decide))
      exact ⟨this.1, this.2.1⟩
  · rw [if_neg h1] at hc
    by_cases h2 : b = 34 ∨ b = 92
    · rw [if_pos h2] at hc
      simp only [List.mem_cons, List.not_mem_nil, or_false] at hc
      rcases h2 with rfl | rfl
      · rcases hc with rfl | rfl
        · decide
        · decide
      · rcases hc with rfl | rfl
        · decide
        · decide
    · rw [if_neg h2] at hc
      simp only [List.mem_cons, List.not_mem_nil, or_false] at hc
      subst hc
      have hof := charOfNat_facts b (by omega) (by omega)
      omega

theorem escByte_ne_newline (b : Nat) : ∀ c ∈ bits.escByte b, c ≠ '\n' := by
  intro c hc heq
  have := escByte_chars b c hc
  rw [heq] at this
  revert this
  decide

theorem escByte_len (b : Nat) :
    1 ≤ (bits.escByte b).length ∧ (bits.escByte b).length ≤ 4 := by
  unfold bits.escByte
  split
  · simp
  · split <;> simp

theorem linesLE_append (bound : Nat) (s : List Char) (hs : ∀ c ∈ s, c ≠ '\n') :
    ∀ (k : Nat) (t : List Char),
      bits.linesLE bound k (s ++ t) = bits.linesLE bound (k + s.length) t := by
  induction s with
  | nil => intro k t; simp [bits.linesLE]
  | cons c rest ih =>
    intro k t
    have hc : c ≠ '\n' := hs c (List.mem_cons_self _ _)
    have harith : k + 1 + rest.length = k + (rest.length + 1) := by omega
    rw [List.cons_append, bits.linesLE, if_neg hc,
      ih (fun x hx => hs x (List.mem_cons_of_mem _ hx)) (k + 1) t]
    simp [harith]

theorem toSourceLoop_lines (l : List Nat) : ∀ pos, 1 ≤ pos → pos ≤ 120 →
    bits.linesLE 126 pos ((bits.toSourceLoop l pos).1 ++ '"' ::
      (if 1 < (bits.toSourceLoop l pos).2 then ['\n'] else [])) = true := by
  induction l with
  | nil =>
    intro pos h1 h2
    simp only [bits.toSourceLoop, List.nil_append]
    by_cases h : 1 < pos
    · simp [bits.linesLE, h, decide_eq_true_eq]
      omega
    · simp [bits.linesLE, h, decide_eq_true_eq]
      omega
  | cons b rest ih =>
    intro pos h1 h2
    have hlen := escByte_len b
    simp only [bits.toSourceLoop]
    by_cases hw : 120 < pos + (bits.escByte b).length
    · simp only [hw, if_true, List.cons_append, List.append_assoc]
      rw [linesLE_append 126 (bits.escByte b) (escByte_ne_newline b)]
      have hih := ih 1 (le_refl 1) (by omega)
      simp [bits.linesLE, decide_eq_true_eq, hih]
      omega
    · simp only [hw, if_false, List.append_assoc]
      rw [linesLE_append 126 (bits.escByte b) (escByte_ne_newline b)]
      exact ih (pos + (bits.escByte b).length) (by omega) (by omega)

theorem toSourceLoop_chars (l : List Nat) : ∀ pos c,
    c ∈ (bits.toSourceLoop l pos).1 →
    (32 ≤ c.toNat ∧ c.toNat ≤ 126) ∨ c = '\n' := by
  induction l with
  | nil => intro pos c hc; simp [bits.toSourceLoop] at hc
  | cons b rest ih =>
    intro pos c hc
    simp only [bits.toSourceLoop] at hc
    by_cases hw : 120 < pos + (bits.escByte b).length
    · simp only [hw, if_true] at hc
      simp only [List.mem_append, List.mem_cons] at hc
      rcases hc with hc | rfl | rfl | rfl | rfl | hc
      · exact Or.inl (escByte_chars b c hc)
      · left; decide
      · left; decide
      · right; rfl
      · left; decide
      · exact ih 1 c hc
    · simp only [hw, if_false] at hc
      simp only [List.mem_append] at hc
      rcases hc with hc | hc
      · exact Or.inl (escByte_chars b c hc)
      · exact ih (pos + (bits.escByte b).length) c hc

theorem fromSourceBody_wrap (X : List Char) :
    bits.fromSourceBody ('"' :: '+' :: '\n' :: '"' :: X) = bits.fromSourceBody X := by
  simp [bits.fromSourceBody]

theorem fromSource_chunk (b : Nat) (hb : b < 256) (M : List Char) (t : List Nat)
    (hM : bits.fromSourceBody M = some t) :
    bits.fromSourceBody (bits.escByte b ++ M) = some (b :: t) := by
  rw [bits.escByte]
  by_cases h1 : b < 32 ∨ 126 < b
  · simp only [h1, if_true, List.cons_append, List.nil_append]
    have hd1 := (digitChar_facts (b / 16 % 16) (Nat.mod_lt _ (by decide))).2.2.2
    have hd2 := (digitChar_facts (b % 16) (Nat.mod_lt _ (by decide))).2.2.2
    have harr : 16 * (b / 16 % 16) + b % 16 = b := by omega
    simp [bits.fromSourceBody, hd1, hd2, hM, harr]
  · by_cases h2 : b = 34 ∨ b = 92
    · have h1' : ¬(b < 32 ∨ 126 < b) := h1
      rcases h2 with rfl | rfl
      · have hq : Char.ofNat 34 = '"' := by decide
        simp only [h1', if_false, if_true, List.cons_append, List.nil_append,
          show ((34 : Nat) = 34 ∨ (34 : Nat) = 92) from Or.inl rfl, hq]
        rw [bits.fromSourceBody.eq_def]
        simp [hM]
      · have hq : Char.ofNat 92 = '\\' := by decide
        simp only [h1', if_false, if_true, List.cons_append, List.nil_append,
          show ((92 : Nat) = 34 ∨ (92 : Nat) = 92) from Or.inr rfl, hq]
        rw [bits.fromSourceBody.eq_def]
        simp [hM]
    · simp only [h1, if_false, h2, List.cons_append, List.nil_append]
      have hof := charOfNat_facts b (by omega) (by omega)
      have hne1 : ¬(Char.ofNat b = '"') := hof.2.2.1 (by omega)
      have hne2 : ¬(Char.ofNat b = '\\') := hof.2.2.2 (by omega)
      have hne3 : ¬(Char.ofNat b = '\n') := hof.2.1
      rw [bits.fromSourceBody.eq_def]
      simp [hne1, hne2, hne3, hM, hof.1]

theorem fromSourceBody_toSourceLoop (l : List Nat) : ∀ pos, (∀ b ∈ l, b < 256) →
    bits.fromSourceBody ((bits.toSourceLoop l pos).1 ++ '"' ::
      (if 1 < (bits.toSourceLoop l pos).2 then ['\n'] else [])) = some l := by
  induction l with
  | nil =>
    intro pos _
    simp only [bits.toSourceLoop, List.nil_append]
    by_cases h : 1 < pos
    · simp [bits.fromSourceBody, h]
    · simp [bits.fromSourceBody, h]
  | cons b rest ih =>
    intro pos hb
    have hb0 : b < 256 := hb b (List.mem_cons_self _ _)
    have hbr : ∀ x ∈ rest, x < 256 := fun x hx => hb x (List.mem_cons_of_mem _ hx)
    simp only [bits.toSourceLoop]
    by_cases hw : 120 < pos + (bits.escByte b).length
    · simp only [hw, if_true, List.cons_append, List.append_assoc]
      exact fromSource_chunk b hb0 _ rest
        (by rw [fromSourceBody_wrap]; exact ih 1 hbr)
    · simp only [hw, if_false, List.append_assoc]
      exact fromSource_chunk b hb0 _ rest (ih (pos + (bits.escByte b).length) hbr)

set_option maxRecDepth 8192 in
/-- C9 counterexample: the claim bounds every emitted line by the
configured width 120, but the loop only wraps *after* the position
passes 120 and then appends `"+` to the line being closed.  Thirty
`\x00` escapes make the first line `"` plus 30 four-character escapes
plus `"+` — 123 characters, exceeding 120. -/
theorem claim9_counterexample :
    bits.linesLE 120 0 (bits.ToSource (List.replicate 30 0)) = false := by
  decide

/-- C9 amended: `ToSource` emits a quoted literal in which every
non-printable byte and every quote or backslash is escaped — the output
consists solely of printable ASCII and the wrap/final newlines, and
reading the emitted literal back as a concatenation of quoted Go
string segments recovers the data exactly — and the line-wrapping
bounds every emitted line by 126 characters (the wrap triggers once a
line's literal content exceeds 120, and the closing `"+` can add to a
line that already holds up to 124 characters). -/
theorem claim9_amended (data : List Nat) (hb : ∀ b ∈ data, b < 256) :
    bits.linesLE 126 0 (bits.ToSource data) = true ∧
    (∀ c ∈ bits.ToSource data, (32 ≤ c.toNat ∧ c.toNat ≤ 126) ∨ c = '\n') ∧
    bits.fromSource (bits.ToSource data) = some data := by
  have hnorm : bits.ToSource data = '"' :: ((bits.toSourceLoop data 1).1 ++
      '"' :: (if 1 < (bits.toSourceLoop data 1).2 then ['\n'] else [])) := by
    unfold bits.ToSource
    simp [List.cons_append, List.append_assoc, List.singleton_append]
  refine ⟨?_, ?_, ?_⟩
  · have h := toSourceLoop_lines data 1 (le_refl 1) (by omega)
    have hstep : ∀ (X : List Char),
        bits.linesLE 126 0 ('"' :: X) = bits.linesLE 126 1 X := by
      intro X
      simp [bits.linesLE]
    rw [hnorm, hstep]
    exact h
  · intro c hc
    rw [hnorm] at hc
    rcases List.mem_cons.mp hc with rfl | hc2
    · left; decide
    · simp only [List.mem_append, List.mem_cons] at hc2
      rcases hc2 with hc3 | rfl | hc4
      · exact toSourceLoop_chars data 1 c hc3
      · left; decide
      · by_cases hp : 1 < (bits.toSourceLoop data 1).2
        · simp [hp] at hc4
          right; exact hc4
        · simp [hp] at hc4
  · have h := fromSourceBody_toSourceLoop data 1 hb
    rw [hnorm]
    simp only [bits.fromSource]
    exact h

/-- Witness for the amended C9 on bytes exercising all escape
branches: a non-printable byte, the quote, the backslash, and a plain
printable byte. -/
theorem claim9_witness :
    bits.linesLE 126 0 (bits.ToSource [0, 34, 92, 65]) = true ∧
    (∀ c ∈ bits.ToSource [0, 34, 92, 65],
      (32 ≤ c.toNat ∧ c.toNat ≤ 126) ∨ c = '\n') ∧
    bits.fromSource (bits.ToSource [0, 34, 92, 65]) = some [0, 34, 92, 65] :=
  claim9_amended [0, 34, 92, 65] (by decide)
